import Mathlib

/-!
# Verification of Conduit Mesh Blueprint algorithms

A shallow embedding, in Lean 4, of the parts of the Conduit library relevant
to the claims under review: the Blueprint `verify` dispatch and multi-domain
acceptance, the coordset/topology converters (uniform/rectilinear → explicit,
structured → unstructured, unstructured → polygonal/polytopal), the
`generate_sides` vertex-associated field mapping, the parallel global-id
numbering of the ParMETIS partition driver, the Metis width static
assertions, and the `join_file_path` string utility.

Numeric leaf values are modelled as `ℚ` (the source's float64 arithmetic on
the small integral values involved is exact) and index arithmetic as `ℕ`;
conversions through `to_data_type` are value-preserving on the in-range
values considered.
-/

namespace Conduit

/-! ## A minimal model of `conduit::Node` trees

Only the structure needed by `blueprint::mesh::verify` and
`verify_multi_domain` (conduit_blueprint_mesh.cpp): a node's dtype is
`empty`, `object`, `list`, or a leaf; object children are named and ordered.
-/

inductive MNode where
  /-- dtype empty -/
  | empty : MNode
  /-- dtype object: ordered, named children -/
  | obj : List (String × MNode) → MNode
  /-- dtype list: ordered, unnamed children -/
  | lst : List MNode → MNode
  /-- any numeric / string / other leaf dtype -/
  | leaf : MNode

namespace MNode

/-- `Node::dtype().is_empty()` -/
def is_empty_dtype : MNode → Bool
  | .empty => true
  | _ => false

/-- `Node::dtype().is_object()` -/
def is_object : MNode → Bool
  | .obj _ => true
  | _ => false

/-- `Node::dtype().is_list()` -/
def is_list : MNode → Bool
  | .lst _ => true
  | _ => false

/-- `Node::number_of_children()` -/
def number_of_children : MNode → Nat
  | .obj cs => cs.length
  | .lst cs => cs.length
  | _ => 0

/-- `Node::has_child(name)`: only object nodes have named children. -/
def has_child (name : String) : MNode → Bool
  | .obj cs => cs.any (fun c => c.1 = name)
  | _ => false

/-- The ordered list of children visited by `NodeConstIterator`. -/
def children : MNode → List MNode
  | .obj cs => cs.map Prod.snd
  | .lst cs => cs
  | _ => []

end MNode

/-! ## `blueprint::mesh::verify` — multi-domain acceptance (C5)

From `verify_multi_domain` and the two-argument `mesh::verify` in
conduit_blueprint_mesh.cpp.  The single-domain verifier
`verify_single_domain` is irrelevant to the claim and kept as a parameter
`vsd` of the model. -/

/-- `verify_multi_domain(n, info)`: reject anything that is not an object,
a list, or empty; accept an empty dtype or zero children as an empty mesh;
otherwise require every child to be a valid single-domain mesh. -/
def verify_multi_domain (vsd : MNode → Bool) (n : MNode) : Bool :=
  if ¬ (n.is_object || n.is_list || n.is_empty_dtype) then
    false
  else
    if n.is_empty_dtype || n.number_of_children = 0 then
      true
    else
      (n.children).all vsd

/-- `mesh::verify(n, info)`: a node with a `coordsets` child is checked as a
single-domain mesh, anything else as a multi-domain mesh. -/
def mesh_verify (vsd : MNode → Bool) (n : MNode) : Bool :=
  if n.has_child "coordsets" then vsd n else verify_multi_domain vsd n

/-! ## `blueprint::mesh::verify(protocol, n, info)` — protocol dispatch (C6)

From the three-argument `mesh::verify` in conduit_blueprint_mesh.cpp: a
chain of string comparisons; `res` starts `false` and is only assigned by a
matching branch. The fifteen sub-protocol verifiers are parameters of the
model. -/

/-- The sub-protocol verifiers `coordset::verify`, …, `nestset::index::verify`
that the dispatch forwards to. -/
structure SubVerifiers where
  coordset : MNode → Bool
  topology : MNode → Bool
  matset : MNode → Bool
  specset : MNode → Bool
  field : MNode → Bool
  adjset : MNode → Bool
  nestset : MNode → Bool
  index : MNode → Bool
  coordset_index : MNode → Bool
  topology_index : MNode → Bool
  matset_index : MNode → Bool
  specset_index : MNode → Bool
  field_index : MNode → Bool
  adjset_index : MNode → Bool
  nestset_index : MNode → Bool

/-- `mesh::verify(protocol, n, info)`: dispatch on the protocol string;
unknown protocols leave `res = false`. -/
def mesh_verify_protocol (v : SubVerifiers) (protocol : String) (n : MNode) :
    Bool :=
  if protocol = "coordset" then v.coordset n
  else if protocol = "topology" then v.topology n
  else if protocol = "matset" then v.matset n
  else if protocol = "specset" then v.specset n
  else if protocol = "field" then v.field n
  else if protocol = "adjset" then v.adjset n
  else if protocol = "nestset" then v.nestset n
  else if protocol = "index" then v.index n
  else if protocol = "coordset/index" then v.coordset_index n
  else if protocol = "topology/index" then v.topology_index n
  else if protocol = "matset/index" then v.matset_index n
  else if protocol = "specset/index" then v.specset_index n
  else if protocol = "field/index" then v.field_index n
  else if protocol = "adjset/index" then v.adjset_index n
  else if protocol = "nestset/index" then v.nestset_index n
  else false

/-- The closed set of protocol strings accepted by the dispatch. -/
def mesh_protocols : List String :=
  ["coordset", "topology", "matset", "specset", "field", "adjset",
   "nestset", "index", "coordset/index", "topology/index", "matset/index",
   "specset/index", "field/index", "adjset/index", "nestset/index"]

/-! ## Metis width static assertions (C8)

From conduit_blueprint_mpi_mesh_parmetis.cpp:
`static_assert(IDXTYPEWIDTH != 32 || IDXTYPEWIDTH != 64, ...)` and
`static_assert(REALTYPEWIDTH != 32 || REALTYPEWIDTH != 64, ...)`. -/

/-- The condition of the `IDXTYPEWIDTH` static assertion, as written. -/
def idx_width_assert_cond (w : ℤ) : Prop := w ≠ 32 ∨ w ≠ 64

/-- The condition of the `REALTYPEWIDTH` static assertion, as written. -/
def real_width_assert_cond (w : ℤ) : Prop := w ≠ 32 ∨ w ≠ 64

/-! ## `utils::join_file_path` (C9)

From Utils.cpp:

```
std::string res = left;
if(res.size() > 0 && res[-1] != CONDUIT_UTILS_FILE_PATH_SEPARATOR)
    res += CONDUIT_UTILS_FILE_PATH_SEPARATOR;
res += right;
```

`std::string::operator[]` takes a `size_type` (64-bit unsigned); the literal
`-1` converts to `2^64 - 1`.  Thanks to `&&` short-circuiting the subscript
is evaluated exactly when `res.size() > 0`; at that point `res = left`.  We
model the set of subscript indices the function evaluates against `res`. -/

/-- The value of `(std::string::size_type)(-1)` on a 64-bit platform. -/
def size_t_neg_one : ℕ := 2 ^ 64 - 1

/-- The string-subscript indices `join_file_path(left, right)` evaluates on
the accumulated result `res` (which equals `left` at the only subscript). -/
def join_file_path_subscript_indices (left : List Char) : List ℕ :=
  if 0 < left.length then [size_t_neg_one] else []

/-- The property claimed: every evaluated subscript is in range for `res`
(`res = left` at evaluation time). -/
def join_file_path_subscripts_in_range (left : List Char) : Prop :=
  ∀ i ∈ join_file_path_subscript_indices left, i < left.length

/-! ## ParMETIS partition driver — global numbering (C4, C7)

From `generate_global_element_and_vertex_ids` and
`generate_partition_field` in conduit_blueprint_mpi_mesh_parmetis.cpp.

The SPMD computation is modelled globally: the mesh state across the MPI
communicator is a list of workers (indexed by rank), each a list of local
domains.  A domain records whether it carries the requested topology, its
vertex and element counts, and its `fields` children. -/

/-- One local mesh domain, as seen by the partition driver. -/
structure PDomain where
  has_topo : Bool
  nverts : ℕ
  neles : ℕ
  fields : List (String × List ℕ)

/-- Append a field child (`dom["fields"][name] = vals`). -/
def write_field (name : String) (vals : List ℕ) (d : PDomain) : PDomain :=
  { d with fields := d.fields ++ [(name, vals)] }

/-- `local_total_num_verts`: vertices summed over the local domains that
carry the requested topology. -/
def local_total_num_verts (w : List PDomain) : ℕ :=
  (w.map (fun d => if d.has_topo then d.nverts else 0)).sum

/-- `local_total_num_eles`: elements summed over the local domains that
carry the requested topology. -/
def local_total_num_eles (w : List PDomain) : ℕ :=
  (w.map (fun d => if d.has_topo then d.neles else 0)).sum

/-- `local_info["verts_offsets"]`: the running vertex offset of each local
domain (domains without the topology keep their zero-initialized slot). -/
def vert_offsets_aux (acc : ℕ) : List PDomain → List ℕ
  | [] => []
  | d :: rest =>
      if d.has_topo then acc :: vert_offsets_aux (acc + d.nverts) rest
      else 0 :: vert_offsets_aux acc rest

/-- `local_info["eles_offsets"]`: the running element offset of each local
domain. -/
def ele_offsets_aux (acc : ℕ) : List PDomain → List ℕ
  | [] => []
  | d :: rest =>
      if d.has_topo then acc :: ele_offsets_aux (acc + d.neles) rest
      else 0 :: ele_offsets_aux acc rest

/-- Modelled from the spec: `relay::mpi::max_all_reduce` (the MPI transport
is an external collaborator) — "element-wise max reduction over an integer
vector".  `rows` holds one vector per rank; entry `i` of the result is the
maximum of the ranks' entries `i` (buffers are zero-initialized). -/
def max_all_reduce (rows : List (List ℕ)) (len : ℕ) : List ℕ :=
  (List.range len).map (fun i => (rows.map (fun row => row.getD i 0)).foldl max 0)

/-- The `max_local` buffer of rank `r`: zero-initialized, with the rank's
own total at slot `r`. -/
def rank_contribution (totals : List ℕ) (r : ℕ) : List ℕ :=
  (List.range totals.length).map (fun i => if i = r then totals.getD r 0 else 0)

/-- The `max_global` buffer every rank holds after the reduction. -/
def reduced_totals (totals : List ℕ) : List ℕ :=
  max_all_reduce ((List.range totals.length).map (rank_contribution totals))
    totals.length

/-- Per-worker vertex totals across the communicator. -/
def totals_verts (workers : List (List PDomain)) : List ℕ :=
  workers.map local_total_num_verts

/-- Per-worker element totals across the communicator. -/
def totals_eles (workers : List (List PDomain)) : List ℕ :=
  workers.map local_total_num_eles

/-- `global_verts_offset` on rank `r`: the exclusive prefix sum of the
reduced per-rank vertex totals below `r`. -/
def global_verts_offset (workers : List (List PDomain)) (r : ℕ) : ℕ :=
  ((reduced_totals (totals_verts workers)).take r).sum

/-- `global_eles_offset` on rank `r`. -/
def global_eles_offset (workers : List (List PDomain)) (r : ℕ) : ℕ :=
  ((reduced_totals (totals_eles workers)).take r).sum

/-- The second loop of `generate_global_element_and_vertex_ids` on one rank:
each domain carrying the topology receives a `{prefix}global_vertex_ids`
field holding `vert_base_idx + i` for `i < nverts`, with
`vert_base_idx = global_verts_offset + local_vert_offsets[dom]`, and the
analogous `{prefix}global_element_ids` field. -/
def ggevi_worker (fp : String) (gv ge : ℕ) (w : List PDomain) :
    List PDomain :=
  (w.zip ((vert_offsets_aux 0 w).zip (ele_offsets_aux 0 w))).map
    (fun p =>
      if p.1.has_topo then
        write_field (fp ++ "global_element_ids")
          ((List.range p.1.neles).map (· + (ge + p.2.2)))
          (write_field (fp ++ "global_vertex_ids")
            ((List.range p.1.nverts).map (· + (gv + p.2.1))) p.1)
      else p.1)

/-- `number_of_domains(mesh, comm)`: the global domain count. -/
def number_of_domains (workers : List (List PDomain)) : ℕ :=
  (workers.map List.length).sum

/-- `generate_global_element_and_vertex_ids`: return immediately when the
global domain count is zero; otherwise every rank computes its base offsets
from the max-reduced totals and writes the id fields on its local domains. -/
def generate_global_element_and_vertex_ids (fp : String)
    (workers : List (List PDomain)) : List (List PDomain) :=
  if number_of_domains workers = 0 then workers
  else
    (List.range workers.length).map (fun r =>
      ggevi_worker fp (global_verts_offset workers r)
        (global_eles_offset workers r) (workers.getD r []))

/-- `generate_partition_field`: first generate global ids, then return
immediately when the global domain count is zero; the remainder of the
driver (ParMETIS input assembly, invocation and write-back) is the
parameter `rest`. -/
def generate_partition_field
    (rest : List (List PDomain) → List (List PDomain)) (fp : String)
    (workers : List (List PDomain)) : List (List PDomain) :=
  let m1 := generate_global_element_and_vertex_ids fp workers
  if number_of_domains m1 = 0 then m1 else rest m1

/-- The values of field `name`, concatenated over all domains of all
workers in rank-then-local order (domains lacking the field contribute
nothing). -/
def all_field_values (name : String) (workers : List (List PDomain)) :
    List ℕ :=
  workers.flatMap (fun w =>
    w.flatMap (fun d => (d.fields.lookup name).getD []))

/-! ## `mesh::topology::unstructured::to_polygonal` / `to_polytopal` (C10)

From conduit_blueprint_mesh.cpp.  A single-shape unstructured topology is
modelled by its `elements` entries (shape name, connectivity, optional
sizes/offsets) and optional `subelements` entries; dtypes are dropped
(`to_data_type` through the widest integer dtype preserves the values). -/

/-- A single-shape unstructured topology subtree. -/
structure UnstructTopo where
  coordset : String
  shape : String
  connectivity : List ℕ
  sizes : Option (List ℕ)
  offsets : Option (List ℕ)
  subelements_shape : Option String
  subelements_connectivity : Option (List ℕ)
  subelements_sizes : Option (List ℕ)
  subelements_offsets : Option (List ℕ)

/-- Modelled from the spec: `ShapeType::is_poly()` of
conduit_blueprint_mesh_utils.cpp (not part of this excerpt) — a shape is
poly when it is `polygonal` or `polyhedral`. -/
def is_poly_shape (s : String) : Bool := s = "polygonal" || s = "polyhedral"

/-- Modelled from the spec: the per-shape attributes the converter reads
off the `ShapeCascade` of conduit_blueprint_mesh_utils.cpp (not part of
this excerpt): topological dimension, vertices per element, faces per
element, vertices per face, and the flat local-vertex embedding of the
faces.  The converter is parameterized by this table. -/
structure ShapeInfo where
  dim : ℕ
  indices : ℕ
  embed_count : ℕ
  embed_indices : ℕ
  embedding : List ℕ

/-- The polygonal face of element `ei` picked out by face slot `fi`:
`topo_conn[data_off + embedding[fi*embed_indices + ii]]` for each `ii`. -/
def face_of (conn : List ℕ) (si : ShapeInfo) (ei fi : ℕ) : List ℕ :=
  (List.range si.embed_indices).map (fun ii =>
    conn.getD (si.indices * ei + si.embedding.getD (fi * si.embed_indices + ii) 0) 0)

/-- The face-scan of the polyhedral branch: find the first previously
emitted face (a `embed_indices`-chunk of `polygonal_conn_data`) that is a
permutation of `face` (`std::is_permutation`); the chunk list stands for
the flat `polygonal_conn_data` vector read in `embed_indices`-chunks. -/
def find_face (chunks : List (List ℕ)) (face : List ℕ) : Option ℕ :=
  chunks.findIdx? (fun c => decide (c.Perm face))

/-- The polyhedral element loop: walk the faces in element-then-face order,
reusing the id of the first matching earlier face, else appending a new
polygonal face.  Returns `(polyhedral_conn_data, polygonal_conn_data)`. -/
def poly_fold (faces : List (List ℕ)) : List ℕ × List (List ℕ) :=
  faces.foldl
    (fun st face =>
      match find_face st.2 face with
      | some i => (st.1 ++ [i], st.2)
      | none => (st.1 ++ [st.2.length], st.2 ++ [face]))
    ([], [])

/-- Modelled from the spec: `generate_offsets` for a one-to-many relation
(the implementation lives in conduit_blueprint_mesh_utils.cpp, not part of
this excerpt) — offsets are the exclusive prefix sums of `sizes`. -/
def generate_offsets_of (sizes : List ℕ) : List ℕ :=
  (List.range sizes.length).map (fun i => (sizes.take i).sum)

/-- `mesh::topology::unstructured::to_polygonal(topo, dest)`: an already
polygonal/polyhedral topology is copied verbatim (`dest.set(topo)`); a 2D
shape is rewritten as `polygonal` with inherited connectivity and constant
sizes; a 3D shape is factored into deduplicated faces emitted as
`subelements`. -/
def to_polygonal (cascade : String → ShapeInfo) (t : UnstructTopo) :
    UnstructTopo :=
  let ts := cascade t.shape
  if is_poly_shape t.shape then t
  else
    let topo_elems := t.connectivity.length / ts.indices
    if ts.dim = 3 then
      let faces := (List.range topo_elems).flatMap (fun ei =>
        (List.range ts.embed_count).map (fun fi => face_of t.connectivity ts ei fi))
      let fold := poly_fold faces
      { t with
        shape := "polyhedral",
        connectivity := fold.1,
        sizes := some (List.replicate topo_elems ts.embed_count),
        offsets := some (generate_offsets_of
          (List.replicate topo_elems ts.embed_count)),
        subelements_shape := some "polygonal",
        subelements_connectivity := some fold.2.flatten,
        subelements_sizes := some (List.replicate fold.2.length ts.embed_indices),
        subelements_offsets := some (generate_offsets_of
          (List.replicate fold.2.length ts.embed_indices)) }
    else
      { t with
        shape := "polygonal",
        sizes := some (List.replicate topo_elems ts.indices),
        offsets := some (generate_offsets_of
          (List.replicate topo_elems ts.indices)) }

/-- `mesh::topology::unstructured::to_polytopal(topo, dest)`: an alias that
forwards to `to_polygonal`. -/
def to_polytopal (cascade : String → ShapeInfo) (t : UnstructTopo) :
    UnstructTopo :=
  to_polygonal cascade t

/-! ## `mesh::topology::structured::to_unstructured` (C1)

From `convert_topology_to_unstructured` ("structured" case) and the grid
helpers `grid_ijk_to_id` / `grid_id_to_ijk` in conduit_blueprint_mesh.cpp.
Grid index triples are `(i, j, k)`; the unused trailing axes of a 1D/2D
grid hold the code's padding value 1 (`edims_axes[3] = {1, 1, 1}`). -/

/-- `grid_ijk_to_id`: `grid_id = Σ_d ijk[d] · Π_{dd<d} dims[dd]`. -/
def grid_ijk_to_id (ijk dims : ℕ × ℕ × ℕ) : ℕ :=
  ijk.1 + ijk.2.1 * dims.1 + ijk.2.2 * dims.1 * dims.2.1

/-- `grid_id_to_ijk`: peel the axes off `id` from the slowest (`k`,
stride `dims[0]·dims[1]`) down to the fastest (`i`, stride 1). -/
def grid_id_to_ijk (e : ℕ) (dims : ℕ × ℕ × ℕ) : ℕ × ℕ × ℕ :=
  let r2 := e % (dims.1 * dims.2.1)
  let r1 := r2 % dims.1
  (r1 / 1, r2 / dims.1, e / (dims.1 * dims.2.1))

/-- The element shape emitted for a `csys_axes.size()`-dimensional grid:
`line`/`quad`/`hex`, `""` otherwise. -/
def structured_shape (d : ℕ) : String :=
  if d = 1 then "line" else if d = 2 then "quad" else
    if d = 3 then "hex" else ""

/-- `(i & (index_t)pow(2, dd)) >> dd`: axis `dd` of the bitwise direction
vector of local vertex index `i`. -/
def bit_dir (i dd : ℕ) : ℕ := (i &&& 2 ^ dd) >>> dd

/-- `curr_vert`: the element's base corner moved one step along every axis
`dd < d` whose bit is set in the local vertex index `i`. -/
def vert_of (d : ℕ) (elem : ℕ × ℕ × ℕ) (i : ℕ) : ℕ × ℕ × ℕ :=
  (elem.1 + (if 0 < d then bit_dir i 0 else 0),
   elem.2.1 + (if 1 < d then bit_dir i 1 else 0),
   elem.2.2 + (if 2 < d then bit_dir i 2 else 0))

/-- The vertex id written at slot `i` of element `e` before the inversion
post-pass. -/
def structured_vertex_id (d : ℕ) (edims vdims : ℕ × ℕ × ℕ) (e i : ℕ) : ℕ :=
  grid_ijk_to_id (vert_of d (grid_id_to_ijk e edims) i) vdims

/-- One in-place swap of connectivity slots `p` and `p + 1` (`t1`/`t2`/`t3`
shuffle in the source). -/
def swap_at (l : List ℕ) (p : ℕ) : List ℕ :=
  match l.get? p, l.get? (p + 1) with
  | some a, some b => (l.set p b).set (p + 1) a
  | _, _ => l

/-- The inversion post-pass `for(p = 2; p < indices_per_elem; p += 4)`
restricted to one element's group of `ipe` slots (the source's in-place
swaps at `e·ipe + p`, `e·ipe + p + 1` never leave element `e`'s group). -/
def swap_pass_from (l : List ℕ) (ipe p : ℕ) : List ℕ :=
  if p < ipe then swap_pass_from (swap_at l p) ipe (p + 4) else l
termination_by ipe - p

/-- The connectivity of `structured::to_unstructured` on a grid with
per-axis element counts `edims` (unused axes 1): element-major groups of
`2^d` vertex ids, each group written by the bitwise loop and then run
through the inversion post-pass. -/
def structured_connectivity (d : ℕ) (edims : ℕ × ℕ × ℕ) : List ℕ :=
  let vdims : ℕ × ℕ × ℕ := (edims.1 + 1, edims.2.1 + 1, edims.2.2 + 1)
  let num_elems := edims.1 * edims.2.1 * edims.2.2
  (List.range num_elems).flatMap (fun e =>
    swap_pass_from
      ((List.range (2 ^ d)).map (structured_vertex_id d edims vdims e))
      (2 ^ d) 2)

/-- The spec's description of the post-pass: slot `i` ends up holding the
bit-pattern vertex of index `i+1` when `i ≡ 2 (mod 4)`, of `i−1` when
`i ≡ 3 (mod 4)`, and of `i` otherwise (the final two vertices of each
group of four are swapped). -/
def swap_last_two_of_four (i : ℕ) : ℕ :=
  if i % 4 = 2 then i + 1 else if i % 4 = 3 then i - 1 else i

/-- The connectivity as the spec words it: per cell, the `2^d` local
vertices enumerated by the bit pattern of the local index, with the final
two of each group of four swapped. -/
def structured_connectivity_spec (d : ℕ) (edims : ℕ × ℕ × ℕ) : List ℕ :=
  let vdims : ℕ × ℕ × ℕ := (edims.1 + 1, edims.2.1 + 1, edims.2.2 + 1)
  let num_elems := edims.1 * edims.2.1 * edims.2.2
  (List.range num_elems).flatMap (fun e =>
    (List.range (2 ^ d)).map (fun i =>
      structured_vertex_id d edims vdims e (swap_last_two_of_four i)))

/-! ## `convert_coordset_to_explicit` (C2)

From `convert_coordset_to_explicit` in conduit_blueprint_mesh.cpp and its
entry points `mesh::coordset::uniform::to_explicit` /
`mesh::coordset::rectilinear::to_explicit`.  Coordinates are `ℚ` (the
float64 arithmetic on the values involved is exact); per axis `i` the
triple loop writes `val(d)` to offset
`d·dim_block_size + b·dim_block_size·dim_lens[i] + bi`. -/

/-- The writes `(ioffset, value)` the d/b/bi triple loop issues for one
axis, in loop order. -/
def axis_writes (len bs count : ℕ) (val : ℕ → ℚ) : List (ℕ × ℚ) :=
  (List.range len).flatMap (fun d =>
    (List.range count).flatMap (fun b =>
      (List.range bs).map (fun bi => (d * bs + b * bs * len + bi, val d))))

/-- Replay a list of `(index, value)` writes on an array. -/
def apply_writes (init : List ℚ) (ws : List (ℕ × ℚ)) : List ℚ :=
  ws.foldl (fun l w => l.set w.1 w.2) init

/-- One axis of the destination coordset: a `coords_len` array
(`dst_cvals_node.set(DataType(float_dtype.id(), coords_len))`, zeroed)
filled by the triple loop. -/
def convert_axis_to_explicit (coords_len len bs count : ℕ) (val : ℕ → ℚ) :
    List ℚ :=
  apply_writes (List.replicate coords_len 0) (axis_writes len bs count val)

/-- `dim_origin`: axis value of `origin` when the child exists, else 0. -/
def origin_val (orig : Option (List ℚ)) (i : ℕ) : ℚ :=
  match orig with
  | some os => os.getD i 0
  | none => 0

/-- `dim_spacing`: axis value of `spacing` when the child exists, else 1. -/
def spacing_val (spac : Option (List ℚ)) (i : ℕ) : ℚ :=
  match spac with
  | some ss => ss.getD i 0
  | none => 1

/-- `mesh::coordset::uniform::to_explicit`: per axis `i`,
`dim_lens[i] = dims[i]`, `dim_block_size = Π_{j<i} dim_lens[j]`,
`dim_block_count = Π_{j>i} dim_lens[j]`, and the written value is
`dim_origin + d · dim_spacing`. -/
def uniform_to_explicit (dims : List ℕ) (orig spac : Option (List ℚ)) :
    List (List ℚ) :=
  (List.range dims.length).map (fun i =>
    convert_axis_to_explicit dims.prod (dims.getD i 0) (dims.take i).prod
      ((dims.drop (i + 1)).prod)
      (fun d => origin_val orig i + (d : ℚ) * spacing_val spac i))

/-- `mesh::coordset::rectilinear::to_explicit`: per axis `i`,
`dim_lens[i] = values[i].length` and the written value is
`values[i][d]`. -/
def rectilinear_to_explicit (values : List (List ℚ)) : List (List ℚ) :=
  let lens := values.map List.length
  (List.range values.length).map (fun i =>
    convert_axis_to_explicit lens.prod (lens.getD i 0) (lens.take i).prod
      ((lens.drop (i + 1)).prod)
      (fun d => (values.getD i []).getD d 0))

/-! ## `generate_sides` — vertex-associated field mapping (C3)

From `detail::vertex_associated_field` (and its caller
`detail::map_field_to_generated_sides`) in conduit_blueprint_mesh.cpp.
Field values are `ℚ` for the float64 arithmetic.  The `std::map<int,
std::set<int>> info` is modelled as a domain `Finset` plus a
neighbor-`Finset`-valued map (`operator[]` default-constructs an empty
set). -/

/-- The `info` map built while scanning the derived connectivity. -/
structure InfoMap where
  dom : Finset ℕ
  nbrs : ℕ → Finset ℕ

/-- `info[key].insert(val)`. -/
def info_insert (m : InfoMap) (key val : ℕ) : InfoMap :=
  ⟨insert key m.dom,
   fun x => if x = key then insert val (m.nbrs x) else m.nbrs x⟩

/-- `int iter = dimensions == 2 ? 3 : 4` — the stride of the connectivity
scan (triangles in 2D, tetrahedra otherwise). -/
def iter_of (dims : ℕ) : ℕ := if dims = 2 then 3 else 4

/-- The `(info-key, inserted-neighbor)` pairs of the connectivity scan in
loop order: for each `iter`-group `g` and position `j` whose vertex id is
at least `orig_num_points`, every other position `k ≠ j` of the group
contributes its vertex id. -/
def info_writes (conn : List ℕ) (iter origN : ℕ) : List (ℕ × ℕ) :=
  (List.range (conn.length / iter)).flatMap (fun g =>
    (List.range iter).flatMap (fun j =>
      if origN ≤ conn.getD (g * iter + j) 0 then
        ((List.range iter).filter (fun k => decide (k ≠ j))).map (fun k =>
          (conn.getD (g * iter + j) 0, conn.getD (g * iter + k) 0))
      else []))

/-- The `info` map after the scan. -/
def build_info (conn : List ℕ) (iter origN : ℕ) : InfoMap :=
  (info_writes conn iter origN).foldl (fun m w => info_insert m w.1 w.2)
    ⟨∅, fun _ => ∅⟩

/-- `detail::vertex_associated_field`: original vertices copy the source
field; a new vertex with an `info` entry receives the sum of the field at
its recorded neighbors that are original vertices divided by their number
(the code's float64 `0.0/0.0` for an entry with no original neighbor is
excluded by the side topologies this is invoked on); a new vertex with no
entry receives 0. -/
def vertex_associated_field (conn : List ℕ) (dims origN newN : ℕ)
    (field : ℕ → ℚ) : List ℚ :=
  let m := build_info conn (iter_of dims) origN
  (List.range newN).map (fun i =>
    if i < origN then field i
    else if i ∈ m.dom then
      ((m.nbrs i).filter (fun u => decide (u < origN))).sum field /
        (((m.nbrs i).filter (fun u => decide (u < origN))).card : ℚ)
    else 0)

/-- Spec vocabulary: `v` and `u` sit at distinct positions of a common
`iter`-group of the derived connectivity. -/
def side_adjacent (conn : List ℕ) (iter v u : ℕ) : Bool :=
  (List.range (conn.length / iter)).any (fun g =>
    (List.range iter).any (fun j =>
      (List.range iter).any (fun k =>
        decide (k ≠ j) && decide (conn.getD (g * iter + j) 0 = v) &&
          decide (conn.getD (g * iter + k) 0 = u))))

/-- Spec vocabulary: `v` appears in some `iter`-group of the derived
connectivity. -/
def occurs_in_groups (conn : List ℕ) (iter v : ℕ) : Bool :=
  (List.range (conn.length / iter)).any (fun g =>
    (List.range iter).any (fun j =>
      decide (conn.getD (g * iter + j) 0 = v)))

/-- Spec vocabulary: the original vertices adjacent to `v` in the derived
connectivity. -/
def original_neighbors (conn : List ℕ) (iter origN v : ℕ) : Finset ℕ :=
  conn.toFinset.filter
    (fun u => side_adjacent conn iter v u && decide (u < origN))

end Conduit

namespace Conduit

/-- C5: `mesh::verify(n, info)` returns `true` on an empty node; any node
without a `"coordsets"` child is routed to the multi-domain check; and a
multi-domain mesh that is empty (empty dtype, or an object/list with zero
children) is accepted, for every single-domain verifier `vsd`. -/
theorem mesh_verify_empty_mesh_accepted :
    (∀ vsd : MNode → Bool, mesh_verify vsd MNode.empty = true) ∧
    (∀ (vsd : MNode → Bool) (n : MNode), n.has_child "coordsets" = false →
      mesh_verify vsd n = verify_multi_domain vsd n) ∧
    (∀ (vsd : MNode → Bool) (n : MNode),
      (n.is_empty_dtype = true ∨
        ((n.is_object = true ∨ n.is_list = true) ∧ n.number_of_children = 0)) →
      verify_multi_domain vsd n = true) := by
  refine ⟨fun vsd => rfl, fun vsd n h => ?_, fun vsd n h => ?_⟩
  · simp [mesh_verify, h]
  · rcases h with h | ⟨h1, h2⟩
    · simp [verify_multi_domain, h]
    · rcases h1 with h1 | h1 <;>
        simp [verify_multi_domain, h1, h2]

/-- Witness for `mesh_verify_empty_mesh_accepted` at concrete inputs. -/
theorem mesh_verify_empty_mesh_accepted_witness :
    mesh_verify (fun _ => false) MNode.empty = true ∧
    mesh_verify (fun _ => false) (MNode.lst []) =
      verify_multi_domain (fun _ => false) (MNode.lst []) ∧
    verify_multi_domain (fun _ => false) (MNode.obj []) = true := by
  refine ⟨mesh_verify_empty_mesh_accepted.1 _,
    mesh_verify_empty_mesh_accepted.2.1 _ _ (by decide),
    mesh_verify_empty_mesh_accepted.2.2 _ _ (Or.inr ⟨Or.inl rfl, rfl⟩)⟩

/-- C6: the protocol strings accepted by `mesh::verify(protocol, n, info)`
form a closed set: outside `mesh_protocols` the result is `false` for every
node and every choice of sub-verifiers; inside the set, the dispatch
forwards to the corresponding sub-protocol verifier. -/
theorem mesh_verify_protocol_closed_set :
    (∀ (v : SubVerifiers) (p : String) (n : MNode), p ∉ mesh_protocols →
      mesh_verify_protocol v p n = false) ∧
    (∀ (v : SubVerifiers) (n : MNode),
      mesh_verify_protocol v "coordset" n = v.coordset n ∧
      mesh_verify_protocol v "topology" n = v.topology n ∧
      mesh_verify_protocol v "matset" n = v.matset n ∧
      mesh_verify_protocol v "specset" n = v.specset n ∧
      mesh_verify_protocol v "field" n = v.field n ∧
      mesh_verify_protocol v "adjset" n = v.adjset n ∧
      mesh_verify_protocol v "nestset" n = v.nestset n ∧
      mesh_verify_protocol v "index" n = v.index n ∧
      mesh_verify_protocol v "coordset/index" n = v.coordset_index n ∧
      mesh_verify_protocol v "topology/index" n = v.topology_index n ∧
      mesh_verify_protocol v "matset/index" n = v.matset_index n ∧
      mesh_verify_protocol v "specset/index" n = v.specset_index n ∧
      mesh_verify_protocol v "field/index" n = v.field_index n ∧
      mesh_verify_protocol v "adjset/index" n = v.adjset_index n ∧
      mesh_verify_protocol v "nestset/index" n = v.nestset_index n) := by
  constructor
  · intro v p n hp
    simp only [mesh_protocols, List.mem_cons, List.not_mem_nil, or_false,
      not_or] at hp
    obtain ⟨h1, h2, h3, h4, h5, h6, h7, h8, h9, h10, h11, h12, h13, h14,
      h15⟩ := hp
    simp [mesh_verify_protocol, h1, h2, h3, h4, h5, h6, h7, h8, h9, h10,
      h11, h12, h13, h14, h15]
  · intro v n
    refine ⟨rfl, rfl, rfl, rfl, rfl, rfl, rfl, rfl, rfl, rfl, rfl, rfl,
      rfl, rfl, rfl⟩

/-- Witness for `mesh_verify_protocol_closed_set` at a concrete unknown
protocol string. -/
theorem mesh_verify_protocol_closed_set_witness :
    mesh_verify_protocol
      { coordset := fun _ => true, topology := fun _ => true,
        matset := fun _ => true, specset := fun _ => true,
        field := fun _ => true, adjset := fun _ => true,
        nestset := fun _ => true, index := fun _ => true,
        coordset_index := fun _ => true, topology_index := fun _ => true,
        matset_index := fun _ => true, specset_index := fun _ => true,
        field_index := fun _ => true, adjset_index := fun _ => true,
        nestset_index := fun _ => true }
      "mesh" MNode.empty = false := by
  exact mesh_verify_protocol_closed_set.1 _ "mesh" MNode.empty (by decide)

/-- C8: the width assertions `IDXTYPEWIDTH != 32 || IDXTYPEWIDTH != 64` and
`REALTYPEWIDTH != 32 || REALTYPEWIDTH != 64` hold for every integer width:
they are tautologies, so they can never fire; in particular a width such as
48 is not rejected. -/
theorem metis_width_asserts_tautological :
    (∀ w : ℤ, idx_width_assert_cond w) ∧
    (∀ w : ℤ, real_width_assert_cond w) ∧
    idx_width_assert_cond 48 ∧ real_width_assert_cond 48 := by
  have h : ∀ w : ℤ, w ≠ 32 ∨ w ≠ 64 := by
    intro w
    by_cases hw : w = 32
    · exact Or.inr (by simp [hw])
    · exact Or.inl hw
  exact ⟨h, h, h 48, h 48⟩

/-! ### Partition driver lemmas -/

lemma init_le_foldl_max : ∀ (l : List ℕ) (a : ℕ), a ≤ l.foldl max a
  | [], _ => le_refl _
  | b :: t, a => le_trans (le_max_left a b) (init_le_foldl_max t (max a b))

lemma mem_le_foldl_max : ∀ (l : List ℕ) (a x : ℕ), x ∈ l → x ≤ l.foldl max a
  | b :: t, a, x, hx => by
    rcases List.mem_cons.mp hx with h | h
    · subst h
      exact le_trans (le_max_right a x) (init_le_foldl_max t (max a x))
    · exact mem_le_foldl_max t (max a b) x h

lemma foldl_max_le : ∀ (l : List ℕ) (a b : ℕ), a ≤ b → (∀ x ∈ l, x ≤ b) →
    l.foldl max a ≤ b
  | [], _, _, ha, _ => ha
  | c :: t, a, b, ha, hl => by
    refine foldl_max_le t (max a c) b (max_le ha (hl c (List.mem_cons_self c t))) ?_
    exact fun x hx => hl x (List.mem_cons_of_mem c hx)

lemma getD_range_map (f : ℕ → ℕ) (n i : ℕ) :
    ((List.range n).map f).getD i 0 = if i < n then f i else 0 := by
  by_cases h : i < n
  · rw [List.getD_eq_getElem?_getD]
    simp [List.getElem?_map, List.getElem?_range h, h]
  · rw [List.getD_eq_getElem?_getD, List.getElem?_eq_none]
    · simp [h]
    · simpa using h

lemma getD_range_self : ∀ l : List ℕ,
    (List.range l.length).map (fun i => l.getD i 0) = l
  | [] => rfl
  | a :: t => by
    rw [List.length_cons, List.range_succ_eq_map, List.map_cons,
      List.map_map]
    congr 1
    have hcomp : (fun i => (a :: t).getD i 0) ∘ Nat.succ =
        fun i => t.getD i 0 := by
      funext i
      simp [List.getD_cons_succ]
    rw [hcomp, getD_range_self t]

lemma reduced_totals_eq (totals : List ℕ) : reduced_totals totals = totals := by
  unfold reduced_totals max_all_reduce
  have hmap : ∀ i ∈ List.range totals.length,
      ((((List.range totals.length).map
        (rank_contribution totals)).map (fun row => row.getD i 0)).foldl
          max 0) = totals.getD i 0 := by
    intro i hi
    have hi' : i < totals.length := List.mem_range.mp hi
    rw [List.map_map]
    have hrow : ∀ r : ℕ,
        (rank_contribution totals r).getD i 0 =
          if i = r then totals.getD r 0 else 0 := by
      intro r
      unfold rank_contribution
      rw [getD_range_map]
      simp [hi']
    apply le_antisymm
    · refine foldl_max_le _ 0 _ (Nat.zero_le _) ?_
      intro x hx
      rcases List.mem_map.mp hx with ⟨r, _, hr⟩
      rw [Function.comp_apply, hrow r] at hr
      by_cases hir : i = r
      · subst hir
        rw [if_pos rfl] at hr
        omega
      · rw [if_neg hir] at hr
        omega
    · refine mem_le_foldl_max _ 0 _ ?_
      refine List.mem_map.mpr ⟨i, hi, ?_⟩
      rw [Function.comp_apply, hrow i]
      simp
  calc (List.range totals.length).map
        (fun i => (((List.range totals.length).map
          (rank_contribution totals)).map (fun row => row.getD i 0)).foldl
            max 0)
      = (List.range totals.length).map (fun i => totals.getD i 0) :=
        List.map_congr_left hmap
    _ = totals := getD_range_self totals

lemma map_flatMap_comp {α β γ : Type} (l : List α) (f : α → β)
    (g : β → List γ) : (l.map f).flatMap g = l.flatMap (fun x => g (f x)) := by
  induction l with
  | nil => rfl
  | cons a t ih => simp [List.flatMap_cons, ih]

lemma flatMap_congr_left {α β : Type} {l : List α} {f g : α → List β}
    (h : ∀ a ∈ l, f a = g a) : l.flatMap f = l.flatMap g := by
  induction l with
  | nil => rfl
  | cons a t ih =>
    rw [List.flatMap_cons, List.flatMap_cons,
      h a (List.mem_cons_self a t),
      ih (fun x hx => h x (List.mem_cons_of_mem a hx))]

lemma flatMap_range_blocks : ∀ (ts : List ℕ) (b : ℕ),
    (List.range ts.length).flatMap
      (fun r => (List.range (ts.getD r 0)).map (· + (b + (ts.take r).sum)))
    = (List.range ts.sum).map (· + b)
  | [], b => by simp
  | t :: ts, b => by
    rw [List.length_cons, List.range_succ_eq_map]
    simp only [List.flatMap_cons, map_flatMap_comp]
    have hhead :
        (List.range ((t :: ts).getD 0 0)).map
          (· + (b + ((t :: ts).take 0).sum)) =
        (List.range t).map (· + b) := by
      simp
    have htail :
        (List.range ts.length).flatMap
          (fun r => (List.range ((t :: ts).getD (Nat.succ r) 0)).map
            (· + (b + ((t :: ts).take (Nat.succ r)).sum))) =
        (List.range ts.length).flatMap
          (fun r => (List.range (ts.getD r 0)).map
            (· + ((b + t) + (ts.take r).sum))) := by
      refine flatMap_congr_left ?_
      intro r _
      simp only [Nat.succ_eq_add_one, List.getD_cons_succ,
        List.take_succ_cons, List.sum_cons]
      refine List.map_congr_left ?_
      intro x _
      omega
    rw [hhead, htail, flatMap_range_blocks ts (b + t)]
    rw [List.sum_cons, List.range_add, List.map_append, List.map_map]
    congr 1
    refine List.map_congr_left ?_
    intro x _
    simp only [Function.comp_apply]
    omega

lemma range_add_map (a t b : ℕ) :
    (List.range (a + t)).map (· + b) =
    (List.range a).map (· + b) ++ (List.range t).map (· + (b + a)) := by
  rw [List.range_add, List.map_append, List.map_map]
  congr 1
  refine List.map_congr_left ?_
  intro x _
  simp only [Function.comp_apply]
  omega

lemma fields_names_ne (fp : String) :
    ¬ ((fp ++ "global_vertex_ids" : String) = fp ++ "global_element_ids") := by
  intro h
  have hdata := congrArg String.data h
  rw [String.data_append, String.data_append] at hdata
  exact absurd (List.append_cancel_left hdata) (by decide)

lemma lookup_cons_self {β : Type} (k : String) (v : β)
    (rest : List (String × β)) : ((k, v) :: rest).lookup k = some v := by
  simp [List.lookup]

lemma lookup_cons_ne {β : Type} (k a : String) (v : β)
    (rest : List (String × β)) (h : ¬ (k = a)) :
    ((k, v) :: rest).lookup a = rest.lookup a := by
  have hba : (a == k) = false := beq_eq_false_iff_ne.mpr (fun ha => h ha.symm)
  simp [List.lookup, hba]

lemma local_total_num_verts_cons (d : PDomain) (rest : List PDomain) :
    local_total_num_verts (d :: rest) =
      (if d.has_topo then d.nverts else 0) + local_total_num_verts rest := by
  simp [local_total_num_verts]

lemma local_total_num_eles_cons (d : PDomain) (rest : List PDomain) :
    local_total_num_eles (d :: rest) =
      (if d.has_topo then d.neles else 0) + local_total_num_eles rest := by
  simp [local_total_num_eles]

/-- Per-rank view of the id-writing loop: with running local offsets
starting at `accv`/`acce`, the concatenated `{prefix}global_vertex_ids`
values over the rank's domains are `gv + accv, gv + accv + 1, …`; likewise
for elements. -/
lemma ggevi_worker_aux (fp : String) :
    ∀ (w : List PDomain) (gv ge accv acce : ℕ), (∀ d ∈ w, d.fields = []) →
    (((w.zip ((vert_offsets_aux accv w).zip (ele_offsets_aux acce w))).map
        (fun p =>
          if p.1.has_topo then
            write_field (fp ++ "global_element_ids")
              ((List.range p.1.neles).map (· + (ge + p.2.2)))
              (write_field (fp ++ "global_vertex_ids")
                ((List.range p.1.nverts).map (· + (gv + p.2.1))) p.1)
          else p.1)).flatMap
        (fun d => (d.fields.lookup (fp ++ "global_vertex_ids")).getD []) =
      (List.range (local_total_num_verts w)).map (· + (gv + accv))) ∧
    (((w.zip ((vert_offsets_aux accv w).zip (ele_offsets_aux acce w))).map
        (fun p =>
          if p.1.has_topo then
            write_field (fp ++ "global_element_ids")
              ((List.range p.1.neles).map (· + (ge + p.2.2)))
              (write_field (fp ++ "global_vertex_ids")
                ((List.range p.1.nverts).map (· + (gv + p.2.1))) p.1)
          else p.1)).flatMap
        (fun d => (d.fields.lookup (fp ++ "global_element_ids")).getD []) =
      (List.range (local_total_num_eles w)).map (· + (ge + acce)))
  | [], gv, ge, accv, acce, _ => by
    constructor <;> simp [local_total_num_verts, local_total_num_eles]
  | d :: rest, gv, ge, accv, acce, hclean => by
    have hd : d.fields = [] := hclean d (List.mem_cons_self d rest)
    have hrest : ∀ x ∈ rest, x.fields = [] :=
      fun x hx => hclean x (List.mem_cons_of_mem d hx)
    by_cases h : d.has_topo
    · have ih := ggevi_worker_aux fp rest gv ge (accv + d.nverts)
        (acce + d.neles) hrest
      rw [vert_offsets_aux, ele_offsets_aux, if_pos h, if_pos h]
      simp only [List.zip_cons_cons, List.map_cons, List.flatMap_cons,
        if_pos h]
      constructor
      · rw [ih.1, local_total_num_verts_cons d rest, if_pos h,
          range_add_map]
        congr 1
        · simp only [write_field, hd, List.nil_append, List.cons_append]
          rw [lookup_cons_self]
          rfl
        · refine List.map_congr_left ?_
          intro x _
          omega
      · rw [ih.2, local_total_num_eles_cons d rest, if_pos h,
          range_add_map]
        congr 1
        · simp only [write_field, hd, List.nil_append, List.cons_append]
          rw [lookup_cons_ne _ _ _ _ (fields_names_ne fp),
            lookup_cons_self]
          rfl
        · refine List.map_congr_left ?_
          intro x _
          omega
    · have ih := ggevi_worker_aux fp rest gv ge accv acce hrest
      rw [vert_offsets_aux, ele_offsets_aux, if_neg h, if_neg h]
      simp only [List.zip_cons_cons, List.map_cons, List.flatMap_cons,
        if_neg h]
      constructor
      · rw [ih.1, local_total_num_verts_cons d rest, if_neg h,
          Nat.zero_add, hd]
        simp [List.lookup]
      · rw [ih.2, local_total_num_eles_cons d rest, if_neg h,
          Nat.zero_add, hd]
        simp [List.lookup]

lemma totals_verts_getD (workers : List (List PDomain)) (r : ℕ) :
    (totals_verts workers).getD r 0 =
      local_total_num_verts (workers.getD r []) := by
  rcases Nat.lt_or_ge r workers.length with h | h
  · rw [List.getD_eq_getElem?_getD, List.getD_eq_getElem?_getD]
    unfold totals_verts
    rw [List.getElem?_map, List.getElem?_eq_getElem h]
    simp
  · have h1 : (totals_verts workers).length ≤ r := by
      simpa [totals_verts] using h
    rw [List.getD_eq_default _ _ h1, List.getD_eq_default _ _ h]
    simp [local_total_num_verts]

lemma totals_eles_getD (workers : List (List PDomain)) (r : ℕ) :
    (totals_eles workers).getD r 0 =
      local_total_num_eles (workers.getD r []) := by
  rcases Nat.lt_or_ge r workers.length with h | h
  · rw [List.getD_eq_getElem?_getD, List.getD_eq_getElem?_getD]
    unfold totals_eles
    rw [List.getElem?_map, List.getElem?_eq_getElem h]
    simp
  · have h1 : (totals_eles workers).length ≤ r := by
      simpa [totals_eles] using h
    rw [List.getD_eq_default _ _ h1, List.getD_eq_default _ _ h]
    simp [local_total_num_eles]

lemma flatMap_const_nil {α β : Type} (l : List α) :
    l.flatMap (fun _ => ([] : List β)) = [] := by
  induction l with
  | nil => rfl
  | cons a t ih => rw [List.flatMap_cons, ih]; rfl

lemma hclean_getD (workers : List (List PDomain))
    (hclean : ∀ w ∈ workers, ∀ d ∈ w, d.fields = []) (r : ℕ) :
    ∀ d ∈ workers.getD r [], d.fields = [] := by
  intro d hd
  rcases Nat.lt_or_ge r workers.length with h | h
  · rw [List.getD_eq_getElem?_getD, List.getElem?_eq_getElem h] at hd
    exact hclean workers[r] (List.getElem_mem h) d hd
  · rw [List.getD_eq_default _ _ h] at hd
    exact absurd hd (List.not_mem_nil d)

/-- C4: `generate_global_element_and_vertex_ids` assigns, per domain holding
the topology, consecutive vertex (element) ids starting at the exclusive
prefix sum — obtained from the element-wise max-reduction of per-worker
counts — plus the running offset of earlier local domains; concatenated
over all domains of all workers the `{prefix}global_vertex_ids`
(`{prefix}global_element_ids`) values are exactly `0, 1, …, total − 1`:
pairwise disjoint and jointly contiguous from 0. -/
theorem generate_global_ids_disjoint_contiguous (fp : String)
    (workers : List (List PDomain))
    (hclean : ∀ w ∈ workers, ∀ d ∈ w, d.fields = []) :
    all_field_values (fp ++ "global_vertex_ids")
        (generate_global_element_and_vertex_ids fp workers) =
      List.range (totals_verts workers).sum ∧
    all_field_values (fp ++ "global_element_ids")
        (generate_global_element_and_vertex_ids fp workers) =
      List.range (totals_eles workers).sum := by
  by_cases h0 : number_of_domains workers = 0
  · have hempty : ∀ w ∈ workers, w = [] := by
      intro w hw
      have hle : w.length ≤ (workers.map List.length).sum :=
        List.single_le_sum (fun x _ => Nat.zero_le x) _
          (List.mem_map.mpr ⟨w, hw, rfl⟩)

      have h0' : (workers.map List.length).sum = 0 := h0
      exact List.length_eq_zero.mp (by omega)
    have hverts0 : (totals_verts workers).sum = 0 := by
      refine List.sum_eq_zero ?_
      intro x hx
      rcases List.mem_map.mp hx with ⟨w, hw, hwx⟩
      rw [hempty w hw] at hwx
      simpa [local_total_num_verts] using hwx.symm
    have heles0 : (totals_eles workers).sum = 0 := by
      refine List.sum_eq_zero ?_
      intro x hx
      rcases List.mem_map.mp hx with ⟨w, hw, hwx⟩
      rw [hempty w hw] at hwx
      simpa [local_total_num_eles] using hwx.symm
    have hids : ∀ name, all_field_values name
        (generate_global_element_and_vertex_ids fp workers) = [] := by
      intro name
      unfold generate_global_element_and_vertex_ids
      rw [if_pos h0]
      unfold all_field_values
      rw [flatMap_congr_left (g := fun _ => [])
        (fun w hw => by rw [hempty w hw]; rfl)]
      exact flatMap_const_nil workers
    rw [hids, hids, hverts0, heles0]
    exact ⟨rfl, rfl⟩
  · have hW : (totals_verts workers).length = workers.length := by
      simp [totals_verts]
    have hWe : (totals_eles workers).length = workers.length := by
      simp [totals_eles]
    unfold generate_global_element_and_vertex_ids
    rw [if_neg h0]
    unfold all_field_values
    constructor
    · rw [map_flatMap_comp]
      have hstep : ∀ r ∈ List.range workers.length,
          (ggevi_worker fp (global_verts_offset workers r)
              (global_eles_offset workers r) (workers.getD r [])).flatMap
            (fun d => (d.fields.lookup (fp ++ "global_vertex_ids")).getD []) =
          (List.range ((totals_verts workers).getD r 0)).map
            (· + (0 + ((totals_verts workers).take r).sum)) := by
        intro r _
        have haux := (ggevi_worker_aux fp (workers.getD r [])
          (global_verts_offset workers r) (global_eles_offset workers r)
          0 0 (hclean_getD workers hclean r)).1
        unfold ggevi_worker
        rw [haux, totals_verts_getD]
        have hoff : global_verts_offset workers r =
            ((totals_verts workers).take r).sum := by
          unfold global_verts_offset
          rw [reduced_totals_eq]
        rw [hoff]
        refine List.map_congr_left ?_
        intro x _
        omega
      rw [flatMap_congr_left hstep, ← hW,
        flatMap_range_blocks (totals_verts workers) 0]
      simp
    · rw [map_flatMap_comp]
      have hstep : ∀ r ∈ List.range workers.length,
          (ggevi_worker fp (global_verts_offset workers r)
              (global_eles_offset workers r) (workers.getD r [])).flatMap
            (fun d => (d.fields.lookup (fp ++ "global_element_ids")).getD []) =
          (List.range ((totals_eles workers).getD r 0)).map
            (· + (0 + ((totals_eles workers).take r).sum)) := by
        intro r _
        have haux := (ggevi_worker_aux fp (workers.getD r [])
          (global_verts_offset workers r) (global_eles_offset workers r)
          0 0 (hclean_getD workers hclean r)).2
        unfold ggevi_worker
        rw [haux, totals_eles_getD]
        have hoff : global_eles_offset workers r =
            ((totals_eles workers).take r).sum := by
          unfold global_eles_offset
          rw [reduced_totals_eq]
        rw [hoff]
        refine List.map_congr_left ?_
        intro x _
        omega
      rw [flatMap_congr_left hstep, ← hWe,
        flatMap_range_blocks (totals_eles workers) 0]
      simp

/-- Witness for `generate_global_ids_disjoint_contiguous`: two workers with
one topology-bearing domain each (2 and 3 vertices, 1 and 2 elements). -/
theorem generate_global_ids_disjoint_contiguous_witness :
    all_field_values ("" ++ "global_vertex_ids")
        (generate_global_element_and_vertex_ids ""
          [[⟨true, 2, 1, []⟩], [⟨true, 3, 2, []⟩]]) =
      List.range (totals_verts
        [[⟨true, 2, 1, []⟩], [⟨true, 3, 2, []⟩]]).sum ∧
    all_field_values ("" ++ "global_element_ids")
        (generate_global_element_and_vertex_ids ""
          [[⟨true, 2, 1, []⟩], [⟨true, 3, 2, []⟩]]) =
      List.range (totals_eles
        [[⟨true, 2, 1, []⟩], [⟨true, 3, 2, []⟩]]).sum :=
  generate_global_ids_disjoint_contiguous ""
    [[⟨true, 2, 1, []⟩], [⟨true, 3, 2, []⟩]]
    (by intro w hw d hd; fin_cases hw <;> fin_cases hd <;> rfl)

/-- C7: when the global number of domains is zero,
`generate_partition_field` (and the
`generate_global_element_and_vertex_ids` step it invokes) returns
immediately, leaving the mesh unchanged, for every remainder `rest` of the
driver. -/
theorem generate_partition_field_zero_domains
    (rest : List (List PDomain) → List (List PDomain)) (fp : String)
    (workers : List (List PDomain))
    (h : number_of_domains workers = 0) :
    generate_partition_field rest fp workers = workers ∧
    generate_global_element_and_vertex_ids fp workers = workers := by
  have hg : generate_global_element_and_vertex_ids fp workers = workers := by
    unfold generate_global_element_and_vertex_ids
    rw [if_pos h]
  refine ⟨?_, hg⟩
  unfold generate_partition_field
  rw [hg, if_pos h]

/-- Witness for `generate_partition_field_zero_domains`: two workers with
no domains, and a remainder that would erase the mesh if it ran. -/
theorem generate_partition_field_zero_domains_witness :
    generate_partition_field (fun _ => []) "" [[], []] = [[], []] ∧
    generate_global_element_and_vertex_ids "" [[], []] = [[], []] :=
  generate_partition_field_zero_domains (fun _ => []) "" [[], []] rfl

lemma to_polygonal_copy_of_poly (cascade : String → ShapeInfo)
    (t : UnstructTopo) (h : is_poly_shape t.shape = true) :
    to_polygonal cascade t = t := by
  simp [to_polygonal, h]

lemma to_polygonal_shape_poly (cascade : String → ShapeInfo)
    (t : UnstructTopo) (h : is_poly_shape t.shape = false) :
    is_poly_shape (to_polygonal cascade t).shape = true := by
  simp only [to_polygonal]
  rw [if_neg (by simp [h])]
  by_cases hd : (cascade t.shape).dim = 3
  · rw [if_pos hd]
    rfl
  · rw [if_neg hd]
    rfl

/-- C10: an already polygonal/polyhedral unstructured topology is copied
verbatim by `to_polygonal`; `to_polytopal` is an alias of it; and
`to_polygonal` is idempotent on every single-shape unstructured topology,
for every shape cascade. -/
theorem to_polygonal_copy_and_idempotent :
    (∀ (cascade : String → ShapeInfo) (t : UnstructTopo),
      is_poly_shape t.shape = true → to_polygonal cascade t = t) ∧
    (∀ (cascade : String → ShapeInfo) (t : UnstructTopo),
      to_polytopal cascade t = to_polygonal cascade t) ∧
    (∀ (cascade : String → ShapeInfo) (t : UnstructTopo),
      to_polygonal cascade (to_polygonal cascade t) =
        to_polygonal cascade t) := by
  refine ⟨to_polygonal_copy_of_poly, fun _ _ => rfl, ?_⟩
  intro cascade t
  rcases hb : is_poly_shape t.shape with _ | _
  · exact to_polygonal_copy_of_poly cascade _
      (to_polygonal_shape_poly cascade t hb)
  · have h1 := to_polygonal_copy_of_poly cascade t hb
    rw [h1, h1]

/-- Witness for `to_polygonal_copy_and_idempotent` at a concrete polygonal
topology. -/
theorem to_polygonal_copy_and_idempotent_witness :
    to_polygonal (fun _ => ⟨0, 0, 0, 0, []⟩)
      ⟨"coords", "polygonal", [0, 1, 2], some [3], some [0],
        none, none, none, none⟩ =
      ⟨"coords", "polygonal", [0, 1, 2], some [3], some [0],
        none, none, none, none⟩ :=
  to_polygonal_copy_and_idempotent.1 (fun _ => ⟨0, 0, 0, 0, []⟩)
    ⟨"coords", "polygonal", [0, 1, 2], some [3], some [0],
      none, none, none, none⟩ (by rfl)

lemma swap_group_two (f : ℕ → ℕ) :
    swap_pass_from ((List.range 2).map f) 2 2 =
      (List.range 2).map (fun i => f (swap_last_two_of_four i)) := by
  have h2 : List.range 2 = [0, 1] := by decide
  rw [h2]
  simp [swap_pass_from, swap_last_two_of_four]

lemma swap_group_four (f : ℕ → ℕ) :
    swap_pass_from ((List.range 4).map f) 4 2 =
      (List.range 4).map (fun i => f (swap_last_two_of_four i)) := by
  have h4 : List.range 4 = [0, 1, 2, 3] := by decide
  rw [h4]
  simp [swap_pass_from, swap_at, swap_last_two_of_four]

lemma swap_group_eight (f : ℕ → ℕ) :
    swap_pass_from ((List.range 8).map f) 8 2 =
      (List.range 8).map (fun i => f (swap_last_two_of_four i)) := by
  have h8 : List.range 8 = [0, 1, 2, 3, 4, 5, 6, 7] := by decide
  rw [h8]
  simp [swap_pass_from, swap_at, swap_last_two_of_four]

/-- C1: for a structured topology the unstructured connectivity consists of
one `2^d`-vertex element per grid cell whose local vertices are the
bit-pattern neighbors of the cell corner, post-processed by swapping the
final two vertices of each group of four — and the 2×2 quad grid over the
3×3 coordset yields shape `quad` and connectivity
`[0,1,4,3, 1,2,5,4, 3,4,7,6, 4,5,8,7]`. -/
theorem structured_to_unstructured_bitpattern (edims : ℕ × ℕ × ℕ) :
    (∀ d, d = 1 ∨ d = 2 ∨ d = 3 →
      structured_connectivity d edims = structured_connectivity_spec d edims) ∧
    structured_shape 2 = "quad" ∧
    structured_connectivity 2 (2, 2, 1) =
      [0, 1, 4, 3, 1, 2, 5, 4, 3, 4, 7, 6, 4, 5, 8, 7] := by
  have hgen : ∀ (ed : ℕ × ℕ × ℕ) (d : ℕ), d = 1 ∨ d = 2 ∨ d = 3 →
      structured_connectivity d ed = structured_connectivity_spec d ed := by
    intro ed d hd
    simp only [structured_connectivity, structured_connectivity_spec]
    refine flatMap_congr_left ?_
    intro e _
    rcases hd with h | h | h <;> subst h
    · have h1 : (2 : ℕ) ^ 1 = 2 := by norm_num
      rw [h1]
      exact swap_group_two _
    · have h2 : (2 : ℕ) ^ 2 = 4 := by norm_num
      rw [h2]
      exact swap_group_four _
    · have h3 : (2 : ℕ) ^ 3 = 8 := by norm_num
      rw [h3]
      exact swap_group_eight _
  refine ⟨hgen edims, rfl, ?_⟩
  rw [hgen (2, 2, 1) 2 (Or.inr (Or.inl rfl))]
  decide

/-- Witness for `structured_to_unstructured_bitpattern` at `d = 2` over a
3×1-element grid. -/
theorem structured_to_unstructured_bitpattern_witness :
    structured_connectivity 2 (3, 1, 1) =
      structured_connectivity_spec 2 (3, 1, 1) :=
  (structured_to_unstructured_bitpattern (3, 1, 1)).1 2 (Or.inr (Or.inl rfl))

/-! ### Coordset-to-explicit lemmas -/

lemma filter_flatMap {α β : Type} (l : List α) (g : α → List β)
    (p : β → Bool) :
    (l.flatMap g).filter p = l.flatMap (fun a => (g a).filter p) := by
  induction l with
  | nil => rfl
  | cons a t ih =>
    rw [List.flatMap_cons, List.flatMap_cons, List.filter_append, ih]

lemma apply_writes_cons (init : List ℚ) (w : ℕ × ℚ) (ws : List (ℕ × ℚ)) :
    apply_writes init (w :: ws) = apply_writes (init.set w.1 w.2) ws := rfl

lemma apply_writes_length : ∀ (ws : List (ℕ × ℚ)) (init : List ℚ),
    (apply_writes init ws).length = init.length
  | [], _ => rfl
  | w :: ws, init => by
    rw [apply_writes_cons, apply_writes_length ws, List.length_set]

lemma apply_writes_not_mem : ∀ (ws : List (ℕ × ℚ)) (init : List ℚ) (p : ℕ),
    (∀ w ∈ ws, w.1 ≠ p) → (apply_writes init ws)[p]? = init[p]?
  | [], _, _, _ => rfl
  | w :: ws, init, p, h => by
    rw [apply_writes_cons,
      apply_writes_not_mem ws _ p
        (fun x hx => h x (List.mem_cons_of_mem w hx)),
      List.getElem?_set_ne (h w (List.mem_cons_self w ws))]

lemma apply_writes_single : ∀ (ws : List (ℕ × ℚ)) (init : List ℚ)
    (p : ℕ) (v : ℚ), p < init.length →
    ws.filter (fun w => decide (w.1 = p)) = [(p, v)] →
    (apply_writes init ws)[p]? = some v
  | [], _, _, _, _, hf => by simp at hf
  | w :: ws, init, p, v, hp, hf => by
    rw [List.filter_cons] at hf
    by_cases hw : w.1 = p
    · rw [if_pos (by simp [hw])] at hf
      have hw2 : w = (p, v) := by
        have := List.head_eq_of_cons_eq hf
        exact this
      have htail : ws.filter (fun w => decide (w.1 = p)) = [] :=
        List.tail_eq_of_cons_eq hf
      have hnone : ∀ x ∈ ws, x.1 ≠ p := by
        intro x hx
        have := List.filter_eq_nil_iff.mp htail x hx
        simpa using this
      rw [apply_writes_cons, apply_writes_not_mem ws _ p hnone, hw2]
      rw [List.getElem?_set_self]
      simp [hp]
    · rw [if_neg (by simp [hw])] at hf
      rw [apply_writes_cons]
      exact apply_writes_single ws _ p v (by rw [List.length_set]; exact hp) hf

lemma range_filter_shift : ∀ (bs base k : ℕ),
    (List.range bs).filter (fun bi => decide (base + bi = k)) =
      if base ≤ k ∧ k < base + bs then [k - base] else []
  | 0, base, k => by
    simp only [List.range_zero, List.filter_nil]
    rw [if_neg (by omega)]
  | bs + 1, base, k => by
    rw [List.range_succ, List.filter_append, range_filter_shift bs base k]
    by_cases h1 : base ≤ k ∧ k < base + bs
    · rw [if_pos h1, if_pos (by omega)]
      have : ¬ (base + bs = k) := by omega
      simp [this]
    · rw [if_neg h1]
      by_cases h2 : base + bs = k
      · rw [if_pos (by omega)]
        simp [h2]
        omega
      · rw [if_neg (by omega)]
        simp [h2]

lemma window_iff (bs len count d b k : ℕ) (hd : d < len) (hb : b < count)
    (hk : k < bs * len * count) (hbs : 0 < bs) (hlen : 0 < len) :
    (d * bs + b * bs * len ≤ k ∧ k < d * bs + b * bs * len + bs) ↔
      (d = (k / bs) % len ∧ b = k / (bs * len)) := by
  constructor
  · rintro ⟨h1, h2⟩
    have hr : k = d * bs + b * bs * len + (k - (d * bs + b * bs * len)) := by
      omega
    set r := k - (d * bs + b * bs * len) with hrdef
    have hrbs : r < bs := by omega
    have hk2 : k = bs * (d + b * len) + r := by
      rw [hr]; ring
    have hdiv : k / bs = d + b * len := by
      rw [hk2, Nat.mul_add_div hbs, Nat.div_eq_of_lt hrbs, Nat.add_zero]
    have hmod : (k / bs) % len = d := by
      rw [hdiv, Nat.add_mul_mod_self_right, Nat.mod_eq_of_lt hd]
    have hk3 : k = (bs * len) * b + (d * bs + r) := by
      rw [hr]; ring
    have hsmall : d * bs + r < bs * len := by
      calc d * bs + r < d * bs + bs := by omega
        _ = (d + 1) * bs := by ring
        _ ≤ len * bs := Nat.mul_le_mul_right bs hd
        _ = bs * len := Nat.mul_comm len bs
    have hdiv2 : k / (bs * len) = b := by
      rw [hk3, Nat.mul_add_div (Nat.mul_pos hbs hlen),
        Nat.div_eq_of_lt hsmall, Nat.add_zero]
    exact ⟨hmod.symm, hdiv2.symm⟩
  · rintro ⟨hd', hb'⟩
    have hmm : k % (bs * len) = k % bs + bs * (k / bs % len) := Nat.mod_mul
    have hdm : (bs * len) * (k / (bs * len)) + k % (bs * len) = k :=
      Nat.div_add_mod k (bs * len)
    have hkk : k = d * bs + b * bs * len + k % bs := by
      have h3 : (bs * len) * b + (k % bs + bs * d) = k := by
        rw [hd', hb', ← hmm]
        exact hdm
      calc k = (bs * len) * b + (k % bs + bs * d) := h3.symm
        _ = d * bs + b * bs * len + k % bs := by ring
    have : k % bs < bs := Nat.mod_lt k hbs
    omega

lemma flatMap_range_nil {α : Type} (n : ℕ) (g : ℕ → List α)
    (h : ∀ m ∈ List.range n, g m = []) :
    (List.range n).flatMap g = [] := by
  rw [flatMap_congr_left h]
  exact flatMap_const_nil _

lemma flatMap_range_single {α : Type} : ∀ (n j : ℕ) (x : α)
    (g : ℕ → List α), j < n → (∀ m, m < n → g m = if m = j then [x] else []) →
    (List.range n).flatMap g = [x]
  | 0, j, x, g, hj, _ => absurd hj (Nat.not_lt_zero j)
  | n + 1, j, x, g, hj, h => by
    rw [List.range_succ, List.flatMap_append, List.flatMap_cons,
      List.flatMap_nil, List.append_nil]
    by_cases hjn : j = n
    · rw [flatMap_range_nil n g
        (fun m hm => by
          have hmn : m < n := List.mem_range.mp hm
          rw [h m (by omega), if_neg (by omega)]),
        h n (by omega), if_pos hjn.symm, List.nil_append]
    · rw [flatMap_range_single n j x g (by omega) (fun m hm => h m (by omega)),
        h n (by omega), if_neg (by omega), List.append_nil]

lemma filter_pair_pred (bs base k : ℕ) (q : ℚ) :
    ((List.range bs).filter
      ((fun w => decide ((w : ℕ × ℚ).1 = k)) ∘ (fun bi => (base + bi, q)))) =
    (List.range bs).filter (fun bi => decide (base + bi = k)) := by
  refine List.filter_congr ?_
  intro bi _
  simp

lemma axis_writes_filter (len bs count k : ℕ) (val : ℕ → ℚ)
    (hk : k < bs * len * count) :
    (axis_writes len bs count val).filter (fun w => decide (w.1 = k)) =
      [(k, val (k / bs % len))] := by
  have hbs : 0 < bs := by
    rcases Nat.eq_zero_or_pos bs with h | h
    · rw [h] at hk; simp at hk
    · exact h
  have hlen : 0 < len := by
    rcases Nat.eq_zero_or_pos len with h | h
    · rw [h] at hk; simp at hk
    · exact h
  have hcount : 0 < count := by
    rcases Nat.eq_zero_or_pos count with h | h
    · rw [h] at hk; simp at hk
    · exact h
  have hdk : k / bs % len < len := Nat.mod_lt _ hlen
  have hbk : k / (bs * len) < count := by
    rw [Nat.div_lt_iff_lt_mul (Nat.mul_pos hbs hlen)]
    calc k < bs * len * count := hk
      _ = count * (bs * len) := Nat.mul_comm _ _
  unfold axis_writes
  rw [filter_flatMap]
  refine flatMap_range_single len (k / bs % len)
    ((k, val (k / bs % len)) : ℕ × ℚ) _ hdk ?_
  intro d hdlen
  rw [filter_flatMap]
  by_cases hddk : d = k / bs % len
  · rw [if_pos hddk]
    refine flatMap_range_single count (k / (bs * len)) _ _ hbk ?_
    intro b hbcount
    rw [List.filter_map, filter_pair_pred bs (d * bs + b * bs * len) k (val d),
      range_filter_shift]
    by_cases hwin : d * bs + b * bs * len ≤ k ∧
        k < d * bs + b * bs * len + bs
    · have hdb := (window_iff bs len count d b k hdlen hbcount hk hbs
        hlen).mp hwin
      rw [if_pos hwin, if_pos hdb.2]
      have hbase : d * bs + b * bs * len + (k - (d * bs + b * bs * len)) = k := by
        omega
      simp only [List.map_cons, List.map_nil, hbase]
      rw [hddk]
    · have hnb : ¬ (b = k / (bs * len)) := fun hbbk =>
        hwin ((window_iff bs len count d b k hdlen hbcount hk hbs
          hlen).mpr ⟨hddk, hbbk⟩)
      rw [if_neg hwin, if_neg hnb]
      rfl
  · rw [if_neg hddk]
    refine flatMap_range_nil count _ ?_
    intro b hb
    have hbcount := List.mem_range.mp hb
    rw [List.filter_map, filter_pair_pred bs (d * bs + b * bs * len) k (val d),
      range_filter_shift, if_neg ?_]
    · rfl
    · intro hwin
      exact hddk ((window_iff bs len count d b k hdlen hbcount hk hbs
        hlen).mp hwin).1

lemma convert_axis_length (coords_len len bs count : ℕ) (val : ℕ → ℚ) :
    (convert_axis_to_explicit coords_len len bs count val).length =
      coords_len := by
  unfold convert_axis_to_explicit
  rw [apply_writes_length, List.length_replicate]

lemma convert_axis_entry (coords_len len bs count k : ℕ) (val : ℕ → ℚ)
    (hcl : coords_len = bs * len * count) (hk : k < coords_len) :
    (convert_axis_to_explicit coords_len len bs count val)[k]? =
      some (val (k / bs % len)) := by
  unfold convert_axis_to_explicit
  refine apply_writes_single _ _ k _ ?_ ?_
  · rw [List.length_replicate]; exact hk
  · exact axis_writes_filter len bs count k val (hcl ▸ hk)

lemma prod_split (lens : List ℕ) (i : ℕ) (hi : i < lens.length) :
    lens.prod = (lens.take i).prod * lens.getD i 0 * (lens.drop (i + 1)).prod := by
  conv_lhs => rw [← List.take_append_drop i lens]
  rw [List.prod_append, List.drop_eq_getElem_cons hi, List.prod_cons,
    List.getD_eq_getElem lens 0 hi]
  ring

lemma map_range_getD_list {α : Type} (n i : ℕ) (f : ℕ → List α)
    (hi : i < n) : ((List.range n).map f).getD i [] = f i := by
  rw [List.getD_eq_getElem?_getD, List.getElem?_map,
    List.getElem?_range hi]
  rfl

/-- C2: `to_explicit` on a uniform or rectilinear coordset emits, per axis,
an array of length `Π dims` holding the Cartesian product of the axis
values in column-major (`x` fastest) order: vertex `k`'s coordinate on axis
`a` is `origin_a + ijk_a(k)·spacing_a` (uniform; defaults 0 and 1 when the
children are absent) or the `ijk_a(k)`-th axis value (rectilinear), with
`ijk_a(k) = (k / Π_{j<a} dims_j) % dims_a`; and dims {i:3, j:2}, origin
{x:0, y:0}, spacing {dx:1, dy:2} yields `values/x = [0,1,2, 0,1,2]` and
`values/y = [0,0,0, 2,2,2]`. -/
theorem coordset_to_explicit_cartesian :
    (∀ (dims : List ℕ) (orig spac : Option (List ℚ)) (i k : ℕ),
      i < dims.length → k < dims.prod →
      ((uniform_to_explicit dims orig spac).getD i [])[k]? =
        some (origin_val orig i +
          ((k / (dims.take i).prod % dims.getD i 0 : ℕ) : ℚ) *
            spacing_val spac i)) ∧
    (∀ (values : List (List ℚ)) (i k : ℕ),
      i < values.length → k < (values.map List.length).prod →
      ((rectilinear_to_explicit values).getD i [])[k]? =
        some ((values.getD i []).getD
          (k / ((values.map List.length).take i).prod %
            (values.map List.length).getD i 0) 0)) ∧
    (∀ (dims : List ℕ) (orig spac : Option (List ℚ)) (i : ℕ),
      i < dims.length →
      ((uniform_to_explicit dims orig spac).getD i []).length = dims.prod) ∧
    uniform_to_explicit [3, 2] (some [0, 0]) (some [1, 2]) =
      [[0, 1, 2, 0, 1, 2], [0, 0, 0, 2, 2, 2]] := by
  refine ⟨?_, ?_, ?_, ?_⟩
  · intro dims orig spac i k hi hk
    simp only [uniform_to_explicit]
    rw [map_range_getD_list dims.length i _ hi]
    exact convert_axis_entry dims.prod (dims.getD i 0) (dims.take i).prod
      ((dims.drop (i + 1)).prod) k _ (prod_split dims i hi) hk
  · intro values i k hi hk
    simp only [rectilinear_to_explicit]
    have hi' : i < (values.map List.length).length := by simpa using hi
    rw [map_range_getD_list values.length i _ hi]
    exact convert_axis_entry (values.map List.length).prod
      ((values.map List.length).getD i 0)
      ((values.map List.length).take i).prod
      (((values.map List.length).drop (i + 1)).prod) k _
      (prod_split (values.map List.length) i hi') hk
  · intro dims orig spac i hi
    simp only [uniform_to_explicit]
    rw [map_range_getD_list dims.length i _ hi]
    exact convert_axis_length _ _ _ _ _
  · simp only [uniform_to_explicit, convert_axis_to_explicit, apply_writes,
      axis_writes, origin_val, spacing_val]
    norm_num [List.range_succ, List.replicate, List.set, List.foldl,
      List.flatMap]

/-- Witness for `coordset_to_explicit_cartesian` at the spec's 3×2 uniform
example and a 2×2 rectilinear coordset. -/
theorem coordset_to_explicit_cartesian_witness :
    ((uniform_to_explicit [3, 2] (some [0, 0]) (some [1, 2])).getD 1 [])[4]? =
      some (origin_val (some [0, 0]) 1 +
        ((4 / (([3, 2] : List ℕ).take 1).prod %
          ([3, 2] : List ℕ).getD 1 0 : ℕ) : ℚ) *
          spacing_val (some [1, 2]) 1) ∧
    ((rectilinear_to_explicit [[0, 1], [5, 7]]).getD 0 [])[3]? =
      some ((([[0, 1], [5, 7]] : List (List ℚ)).getD 0 []).getD
        (3 / ((([[0, 1], [5, 7]] : List (List ℚ)).map
            List.length).take 0).prod %
          (([[0, 1], [5, 7]] : List (List ℚ)).map List.length).getD 0 0) 0) ∧
    ((uniform_to_explicit [3, 2] (some [0, 0])
        (some [1, 2])).getD 0 []).length = ([3, 2] : List ℕ).prod :=
  ⟨coordset_to_explicit_cartesian.1 [3, 2] (some [0, 0]) (some [1, 2]) 1 4
      (by decide) (by decide),
   coordset_to_explicit_cartesian.2.1 [[0, 1], [5, 7]] 0 3
      (by decide) (by decide),
   coordset_to_explicit_cartesian.2.2.1 [3, 2] (some [0, 0]) (some [1, 2]) 0
      (by decide)⟩

/-! ### generate_sides field-mapping lemmas -/

lemma info_foldl_dom : ∀ (ws : List (ℕ × ℕ)) (m : InfoMap) (x : ℕ),
    (x ∈ (ws.foldl (fun m w => info_insert m w.1 w.2) m).dom ↔
      x ∈ m.dom ∨ ∃ w ∈ ws, w.1 = x)
  | [], m, x => by simp
  | w :: ws, m, x => by
    rw [List.foldl_cons, info_foldl_dom ws]
    simp only [info_insert, Finset.mem_insert, List.mem_cons]
    constructor
    · rintro ((h | h) | ⟨w2, hw2, hx⟩)
      · exact Or.inr ⟨w, Or.inl rfl, h.symm⟩
      · exact Or.inl h
      · exact Or.inr ⟨w2, Or.inr hw2, hx⟩
    · rintro (h | ⟨w2, (rfl | hw2), hx⟩)
      · exact Or.inl (Or.inr h)
      · exact Or.inl (Or.inl hx.symm)
      · exact Or.inr ⟨w2, hw2, hx⟩

lemma info_foldl_nbrs : ∀ (ws : List (ℕ × ℕ)) (m : InfoMap) (x y : ℕ),
    (y ∈ (ws.foldl (fun m w => info_insert m w.1 w.2) m).nbrs x ↔
      y ∈ m.nbrs x ∨ (x, y) ∈ ws)
  | [], m, x, y => by simp
  | w :: ws, m, x, y => by
    rw [List.foldl_cons, info_foldl_nbrs ws]
    simp only [info_insert, List.mem_cons]
    by_cases hx : x = w.1
    · rw [if_pos hx]
      simp only [Finset.mem_insert]
      constructor
      · rintro ((h | h) | h)
        · exact Or.inr (Or.inl (by rw [hx, h]))
        · exact Or.inl h
        · exact Or.inr (Or.inr h)
      · rintro (h | (h | h))
        · exact Or.inl (Or.inr h)
        · exact Or.inl (Or.inl (by rw [← h]))
        · exact Or.inr h
    · rw [if_neg hx]
      constructor
      · rintro (h | h)
        · exact Or.inl h
        · exact Or.inr (Or.inr h)
      · rintro (h | (h | h))
        · exact Or.inl h
        · exact absurd (congrArg Prod.fst h) hx
        · exact Or.inr h

lemma mem_info_writes (conn : List ℕ) (iter origN x y : ℕ) :
    ((x, y) ∈ info_writes conn iter origN ↔
      ∃ g < conn.length / iter, ∃ j < iter, ∃ k < iter, k ≠ j ∧
        conn.getD (g * iter + j) 0 = x ∧ origN ≤ x ∧
        conn.getD (g * iter + k) 0 = y) := by
  unfold info_writes
  constructor
  · intro h
    rcases List.mem_flatMap.mp h with ⟨g, hg, h2⟩
    rcases List.mem_flatMap.mp h2 with ⟨j, hj, h3⟩
    by_cases hc : origN ≤ conn.getD (g * iter + j) 0
    · rw [if_pos hc] at h3
      rcases List.mem_map.mp h3 with ⟨k, hk, hxy⟩
      rcases List.mem_filter.mp hk with ⟨hkr, hkj⟩
      have hx : conn.getD (g * iter + j) 0 = x := congrArg Prod.fst hxy
      refine ⟨g, List.mem_range.mp hg, j, List.mem_range.mp hj, k,
        List.mem_range.mp hkr, by simpa using hkj, hx, hx ▸ hc,
        congrArg Prod.snd hxy⟩
    · rw [if_neg hc] at h3
      exact absurd h3 (List.not_mem_nil _)
  · rintro ⟨g, hg, j, hj, k, hk, hkj, hx, hox, hy⟩
    refine List.mem_flatMap.mpr ⟨g, List.mem_range.mpr hg, ?_⟩
    refine List.mem_flatMap.mpr ⟨j, List.mem_range.mpr hj, ?_⟩
    rw [if_pos (hx ▸ hox)]
    refine List.mem_map.mpr ⟨k, ?_, ?_⟩
    · exact List.mem_filter.mpr ⟨List.mem_range.mpr hk, by simpa using hkj⟩
    · rw [hx, hy]

lemma occurs_in_groups_iff (conn : List ℕ) (iter v : ℕ) :
    (occurs_in_groups conn iter v = true ↔
      ∃ g < conn.length / iter, ∃ j < iter,
        conn.getD (g * iter + j) 0 = v) := by
  unfold occurs_in_groups
  simp [List.any_eq_true, List.mem_range]

lemma side_adjacent_iff (conn : List ℕ) (iter v u : ℕ) :
    (side_adjacent conn iter v u = true ↔
      ∃ g < conn.length / iter, ∃ j < iter, ∃ k < iter, k ≠ j ∧
        conn.getD (g * iter + j) 0 = v ∧
        conn.getD (g * iter + k) 0 = u) := by
  unfold side_adjacent
  simp [List.any_eq_true, List.mem_range, and_assoc]

lemma build_info_dom_iff (conn : List ℕ) (iter origN v : ℕ)
    (h2 : 2 ≤ iter) :
    (v ∈ (build_info conn iter origN).dom ↔
      origN ≤ v ∧ occurs_in_groups conn iter v = true) := by
  unfold build_info
  rw [info_foldl_dom, occurs_in_groups_iff]
  constructor
  · rintro (h | ⟨w, hw, hx⟩)
    · simp at h
    · rcases (mem_info_writes conn iter origN w.1 w.2).mp (by
        simpa using hw) with ⟨g, hg, j, hj, k, hk, hkj, hx1, hox, hy⟩
      exact ⟨hx ▸ hox, g, hg, j, hj, hx ▸ hx1⟩
  · rintro ⟨hov, g, hg, j, hj, hjv⟩
    refine Or.inr ⟨(v, conn.getD (g * iter + (if j = 0 then 1 else 0)) 0),
      ?_, rfl⟩
    refine (mem_info_writes conn iter origN _ _).mpr
      ⟨g, hg, j, hj, if j = 0 then 1 else 0, ?_, ?_, hjv, hov, rfl⟩
    · split_ifs <;> omega
    · split_ifs with hj0 <;> omega

lemma build_info_nbrs_iff (conn : List ℕ) (iter origN v u : ℕ) :
    (u ∈ (build_info conn iter origN).nbrs v ↔
      origN ≤ v ∧ side_adjacent conn iter v u = true) := by
  unfold build_info
  rw [info_foldl_nbrs, side_adjacent_iff]
  constructor
  · rintro (h | h)
    · simp at h
    · rcases (mem_info_writes conn iter origN v u).mp h with
        ⟨g, hg, j, hj, k, hk, hkj, hx, hox, hy⟩
      exact ⟨hox, g, hg, j, hj, k, hk, hkj, hx, hy⟩
  · rintro ⟨hov, g, hg, j, hj, k, hk, hkj, hx, hy⟩
    exact Or.inr ((mem_info_writes conn iter origN v u).mpr
      ⟨g, hg, j, hj, k, hk, hkj, hx, hov, hy⟩)

lemma adjacent_mem_conn (conn : List ℕ) (iter v u : ℕ)
    (h : side_adjacent conn iter v u = true) : u ∈ conn := by
  rcases (side_adjacent_iff conn iter v u).mp h with
    ⟨g, hg, j, hj, k, hk, hkj, hx, hy⟩
  have hidx : g * iter + k < conn.length := by
    have h1 : (conn.length / iter) * iter ≤ conn.length :=
      Nat.div_mul_le_self conn.length iter
    have h2 : g * iter + k < (g + 1) * iter := by
      rw [Nat.add_mul, Nat.one_mul]
      omega
    have h3 : (g + 1) * iter ≤ (conn.length / iter) * iter :=
      Nat.mul_le_mul_right iter (by omega)
    omega
  rw [List.getD_eq_getElem conn 0 hidx] at hy
  exact hy ▸ List.getElem_mem hidx

lemma nbrs_filter_eq (conn : List ℕ) (iter origN v : ℕ) (hv : origN ≤ v) :
    ((build_info conn iter origN).nbrs v).filter
        (fun u => decide (u < origN)) =
      original_neighbors conn iter origN v := by
  unfold original_neighbors
  refine Finset.ext ?_
  intro u
  rw [Finset.mem_filter, Finset.mem_filter]
  constructor
  · rintro ⟨hmem, hu⟩
    have hadj := ((build_info_nbrs_iff conn iter origN v u).mp hmem).2
    refine ⟨List.mem_toFinset.mpr (adjacent_mem_conn conn iter v u hadj), ?_⟩
    simp only [Bool.and_eq_true]
    exact ⟨hadj, hu⟩
  · rintro ⟨hmem, hcond⟩
    simp only [Bool.and_eq_true] at hcond
    exact ⟨(build_info_nbrs_iff conn iter origN v u).mpr ⟨hv, hcond.1⟩,
      hcond.2⟩

lemma getD_map_range {α : Type} (d0 : α) (n i : ℕ) (f : ℕ → α)
    (hi : i < n) : ((List.range n).map f).getD i d0 = f i := by
  rw [List.getD_eq_getElem?_getD, List.getElem?_map,
    List.getElem?_range hi]
  rfl

/-- C3: mapping a vertex-associated field onto a generated side topology:
original vertices keep their source value; every new vertex appearing in
the derived connectivity receives the arithmetic mean of the field at its
adjacent original vertices (only original vertices contribute); a new
vertex with no adjacent original vertex receives 0.  The hypothesis —
every new vertex used by the connectivity has at least one original
neighbor — holds for the groups `generate_sides` emits (each side keeps
its two original edge endpoints). -/
theorem sides_vertex_field_mapping (conn : List ℕ) (dims origN newN : ℕ)
    (field : ℕ → ℚ)
    (hadj : ∀ v, v < newN → origN ≤ v →
      occurs_in_groups conn (iter_of dims) v = true →
      ∃ u < origN, side_adjacent conn (iter_of dims) v u = true) :
    (∀ i, i < origN → i < newN →
      (vertex_associated_field conn dims origN newN field).getD i 0 =
        field i) ∧
    (∀ v, origN ≤ v → v < newN →
      occurs_in_groups conn (iter_of dims) v = true →
      (original_neighbors conn (iter_of dims) origN v).Nonempty ∧
      (vertex_associated_field conn dims origN newN field).getD v 0 =
        (original_neighbors conn (iter_of dims) origN v).sum field /
          ((original_neighbors conn (iter_of dims) origN v).card : ℚ)) ∧
    (∀ v, origN ≤ v → v < newN →
      (¬ ∃ u < origN, side_adjacent conn (iter_of dims) v u = true) →
      (vertex_associated_field conn dims origN newN field).getD v 0 = 0) := by
  have h2 : 2 ≤ iter_of dims := by
    unfold iter_of
    by_cases h : dims = 2 <;> simp [h]
  refine ⟨?_, ?_, ?_⟩
  · intro i hio hin
    unfold vertex_associated_field
    rw [getD_map_range 0 newN i _ hin, if_pos hio]
  · intro v hov hvn hocc
    have hdom : v ∈ (build_info conn (iter_of dims) origN).dom :=
      (build_info_dom_iff conn (iter_of dims) origN v h2).mpr ⟨hov, hocc⟩
    constructor
    · rcases hadj v hvn hov hocc with ⟨u, hu, hadju⟩
      exact ⟨u, Finset.mem_filter.mpr
        ⟨List.mem_toFinset.mpr (adjacent_mem_conn conn (iter_of dims) v u
          hadju), by simp [hadju, hu]⟩⟩
    · unfold vertex_associated_field
      rw [getD_map_range 0 newN v _ hvn, if_neg (by omega), if_pos hdom,
        nbrs_filter_eq conn (iter_of dims) origN v hov]
  · intro v hov hvn hnone
    have hnocc : ¬ occurs_in_groups conn (iter_of dims) v = true :=
      fun hocc => hnone (hadj v hvn hov hocc)
    have hndom : v ∉ (build_info conn (iter_of dims) origN).dom :=
      fun hdom => hnocc
        ((build_info_dom_iff conn (iter_of dims) origN v h2).mp hdom).2
    unfold vertex_associated_field
    rw [getD_map_range 0 newN v _ hvn, if_neg (by omega), if_neg hndom]

/-- Witness for `sides_vertex_field_mapping`: the 4-triangle fan around
centroid vertex 4 of a quad (`[0,1,4, 1,2,4, 2,3,4, 3,0,4]`), original
vertices 0–3. -/
theorem sides_vertex_field_mapping_witness :
    (vertex_associated_field [0, 1, 4, 1, 2, 4, 2, 3, 4, 3, 0, 4] 2 4 5
        (fun i => (i : ℚ))).getD 1 0 = ((1 : ℕ) : ℚ) ∧
    (vertex_associated_field [0, 1, 4, 1, 2, 4, 2, 3, 4, 3, 0, 4] 2 4 5
        (fun i => (i : ℚ))).getD 4 0 =
      (original_neighbors [0, 1, 4, 1, 2, 4, 2, 3, 4, 3, 0, 4]
          (iter_of 2) 4 4).sum (fun i => (i : ℚ)) /
        ((original_neighbors [0, 1, 4, 1, 2, 4, 2, 3, 4, 3, 0, 4]
          (iter_of 2) 4 4).card : ℚ) :=
  ⟨(sides_vertex_field_mapping [0, 1, 4, 1, 2, 4, 2, 3, 4, 3, 0, 4] 2 4 5
      (fun i => (i : ℚ)) (by decide)).1 1 (by decide) (by decide),
   ((sides_vertex_field_mapping [0, 1, 4, 1, 2, 4, 2, 3, 4, 3, 0, 4] 2 4 5
      (fun i => (i : ℚ)) (by decide)).2.1 4 (by decide) (by decide)
      (by decide)).2⟩

/-- C9: at the failing input `left = "a"` (any non-empty `left`),
`join_file_path` evaluates the subscript `res[-1]`, i.e. index
`2^64 - 1`, on the one-character string `res = "a"` — out of range. -/
theorem join_file_path_oob_subscript :
    join_file_path_subscript_indices ['a'] = [2 ^ 64 - 1] ∧
    ¬ join_file_path_subscripts_in_range ['a'] := by
  constructor
  · rfl
  · intro h
    have := h size_t_neg_one (by simp [join_file_path_subscript_indices])
    have hlt : (1 : ℕ) ≤ size_t_neg_one := by
      simp [size_t_neg_one]
    simp only [List.length_cons, List.length_nil] at this
    omega

end Conduit
